import Mathlib

/-!
Verification of the match-and-fallback decision engine of `app.py` (Kepler
College chatbot).  The Python source is embedded shallowly:

* `clean_input`, `find_best_match` and `generate_gemini_response` are
  translated from `app.py`;
* the similarity score `fuzz.token_sort_ratio` is translated from the
  `fuzzywuzzy` library (version 0.18.0) that `app.py` imports: string
  preprocessing (`utils.full_process` with `force_ascii=True`, i.e.
  `asciidammit` + replacement of non-word characters by spaces + lowercasing
  + strip), token sorting (`fuzz._process_and_sort`) and the edit-based
  ratio (`fuzz.ratio`, backed by `difflib.SequenceMatcher` — the backend
  fuzzywuzzy uses when the optional `python-Levenshtein` accelerator is not
  installed; every concrete score evaluated in this file yields the same
  value under both backends).

Modelling notes (character level):
* Python strings are modelled as Lean `String`/`List Char`.
* `str.split()`, `str.strip()` and the regex `\s` share one whitespace
  predicate `isPySpace`, the exact CPython whitespace set.
* ASCII case mapping and the ASCII word-character class (`[A-Za-z0-9_]`)
  are exact; for code points ≥ 256 (which survive `asciidammit`) the model
  maps case identically and classifies them as non-word.  Every theorem
  below only exercises code points < 256, where the model is exact.
* `int(round(100 * ratio))` is modelled as round-half-to-even on the exact
  rational; every concrete score evaluated below is unaffected by float
  representation.
-/

namespace Kepler

/-- CPython's whitespace set, shared by `str.split()`, `str.strip()` and the
regex class `\s`. -/
def isPySpace (c : Char) : Bool :=
  (9 ≤ c.toNat && c.toNat ≤ 13) || (28 ≤ c.toNat && c.toNat ≤ 31) ||
  c.toNat = 32 || c.toNat = 0x85 || c.toNat = 0xA0 || c.toNat = 0x1680 ||
  (0x2000 ≤ c.toNat && c.toNat ≤ 0x200A) || c.toNat = 0x2028 ||
  c.toNat = 0x2029 || c.toNat = 0x202F || c.toNat = 0x205F || c.toNat = 0x3000

/-- Negation of `isPySpace`, used for token extraction. -/
def nonSpace (c : Char) : Bool := !(isPySpace c)

/-- Helper for `pysplit`: structural scan accumulating the current token in
reverse. -/
def pysplitAux : List Char → List Char → List (List Char)
  | [], acc => if acc = [] then [] else [acc.reverse]
  | c :: cs, acc =>
    if isPySpace c then
      (if acc = [] then pysplitAux cs [] else acc.reverse :: pysplitAux cs [])
    else pysplitAux cs (c :: acc)

/-- Python `str.split()` with no argument: maximal runs of non-whitespace
characters, runs of whitespace are separators, empty pieces are dropped. -/
def pysplit (s : List Char) : List (List Char) := pysplitAux s []

/-- Python `str.strip()`: drop leading and trailing whitespace. -/
def pyStrip (s : List Char) : List Char :=
  ((s.dropWhile isPySpace).reverse.dropWhile isPySpace).reverse

/-- Helper for `collapseWs`: structural scan; the flag records whether the
previous character was whitespace (i.e. a space was already emitted for the
current run). -/
def collapseAux : Bool → List Char → List Char
  | _, [] => []
  | inRun, c :: cs =>
    if isPySpace c then
      (if inRun then collapseAux true cs else ' ' :: collapseAux true cs)
    else c :: collapseAux false cs

/-- Python `re.sub(r'\s+', ' ', s)`: replace every maximal run of one or
more whitespace characters by a single space. -/
def collapseWs (s : List Char) : List Char := collapseAux false s

/-- Python `" ".join(tokens)`. -/
def joinSp (ts : List (List Char)) : List Char :=
  match ts with
  | [] => []
  | [t] => t
  | t :: ts => t ++ ' ' :: joinSp ts

/-- Lexicographic comparison of strings by code point, Python's `<=` on
`str` (used by `sorted`). -/
def lexLe (s t : List Char) : Bool :=
  match s, t with
  | [], _ => true
  | _ :: _, [] => false
  | a :: as, b :: bs =>
    if a.toNat < b.toNat then true
    else if b.toNat < a.toNat then false
    else lexLe as bs

/-- Insertion into a `lexLe`-sorted list of tokens. -/
def insertTok (x : List Char) : List (List Char) → List (List Char)
  | [] => [x]
  | y :: ys => if lexLe x y then x :: y :: ys else y :: insertTok x ys

/-- Python `sorted` on a list of strings.  (`lexLe` is antisymmetric, so any
sorted permutation — in particular the stable one Python produces — equals
this insertion sort.) -/
def pysort : List (List Char) → List (List Char)
  | [] => []
  | x :: xs => insertTok x (pysort xs)

/-- fuzzywuzzy `utils.asciidammit` on a `str`: remove code points 128–255
(`str.translate` with a table deleting exactly those). -/
def asciidammit (s : List Char) : List Char :=
  s.filter (fun c => decide (c.toNat < 128) || decide (256 ≤ c.toNat))

/-- Word characters of the regex class `\w` as matched against the output of
`asciidammit`: exact for code points < 128 (`[A-Za-z0-9_]`); code points
≥ 256 are modelled as non-word (no theorem below exercises them). -/
def isWordChar (c : Char) : Bool :=
  (65 ≤ c.toNat && c.toNat ≤ 90) || (97 ≤ c.toNat && c.toNat ≤ 122) ||
  (48 ≤ c.toNat && c.toNat ≤ 57) || c.toNat = 95

/-- fuzzywuzzy `StringProcessor.replace_non_letters_non_numbers_with_whitespace`
applied to one character: regex `\W` is replaced by a space. -/
def wrep (c : Char) : Char := if isWordChar c then c else ' '

/-- Python `str.lower` on one character: exact on ASCII; identity above
(code points 128–255 are removed by `asciidammit` before this is applied
inside `full_process`, and no theorem below exercises points ≥ 256). -/
def lowerCh (c : Char) : Char :=
  if 65 ≤ c.toNat && c.toNat ≤ 90 then Char.ofNat (c.toNat + 32) else c

/-- fuzzywuzzy `utils.full_process(s, force_ascii=True)`: `asciidammit`,
then replace `\W` by spaces, then lowercase, then strip. -/
def full_process (s : List Char) : List Char :=
  pyStrip (((asciidammit s).map wrep).map lowerCh)

/-- fuzzywuzzy `fuzz._process_and_sort(s, force_ascii=True)`: full-process,
split into tokens, sort them, rejoin with single spaces, strip. -/
def process_and_sort (s : List Char) : List Char :=
  pyStrip (joinSp (pysort (pysplit (full_process s))))

/-- Ascending positions of character `c` in `b` (one bucket of difflib's
`b2j` mapping). -/
def positionsOf (c : Char) (b : List Char) : List Nat :=
  (List.range b.length).filter (fun j => b[j]? = some c)

/-- difflib's `b2j` lookup with the autojunk rule: when `len(b) >= 200`,
elements occurring more than `len(b) // 100 + 1` times are "popular" and
dropped from the index. -/
def b2j (b : List Char) (c : Char) : List Nat :=
  if 200 ≤ b.length && b.length / 100 + 1 < b.count c then []
  else positionsOf c b

/-- Equality test `a[i] == b[j]` guarded by bounds, used by the match
extension loops of `find_longest_match`. -/
def chEq (a : List Char) (i : Nat) (b : List Char) (j : Nat) : Bool :=
  match a[i]?, b[j]? with
  | some x, some y => x == y
  | _, _ => false

/-- One row (fixed `i`) of the main loop of difflib
`SequenceMatcher.find_longest_match`: fold over the positions `j` of `a[i]`
in `b` restricted to `[blo, bhi)`, chaining run lengths through `j2len` and
tracking the best `(besti, bestj, bestsize)`. -/
def flmRow (a b : List Char) (blo bhi i : Nat) (j2len : List (Nat × Nat))
    (best : Nat × Nat × Nat) : (Nat × Nat × Nat) × List (Nat × Nat) :=
  let js := (b2j b (a.getD i ' ')).filter (fun j => decide (blo ≤ j) && decide (j < bhi))
  js.foldl
    (fun st j =>
      let k := (if j = 0 then 0 else ((j2len.lookup (j - 1)).getD 0)) + 1
      let best' := if st.1.2.2 < k then (i + 1 - k, j + 1 - k, k) else st.1
      (best', (j, k) :: st.2))
    (best, [])

/-- The main double loop of `find_longest_match` over `i ∈ [alo, ahi)`. -/
def flmLoops (a b : List Char) (alo ahi blo bhi : Nat) : Nat × Nat × Nat :=
  ((List.range' alo (ahi - alo)).foldl
    (fun (st : (Nat × Nat × Nat) × List (Nat × Nat)) i =>
      flmRow a b blo bhi i st.2 st.1)
    ((alo, blo, 0), [])).1

/-- The backward extension loop of `find_longest_match` (the junk set is
empty here since `isjunk=None`, so the two "junk" loops never fire and the
two "non-junk" loops reduce to plain equality extension). -/
def extendLo (a b : List Char) (alo blo : Nat) :
    Nat → Nat × Nat × Nat → Nat × Nat × Nat
  | 0, st => st
  | fuel + 1, (bi, bj, bs) =>
    if alo < bi && blo < bj && chEq a (bi - 1) b (bj - 1) then
      extendLo a b alo blo fuel (bi - 1, bj - 1, bs + 1)
    else (bi, bj, bs)

/-- The forward extension loop of `find_longest_match`. -/
def extendHi (a b : List Char) (ahi bhi : Nat) :
    Nat → Nat × Nat × Nat → Nat × Nat × Nat
  | 0, st => st
  | fuel + 1, (bi, bj, bs) =>
    if bi + bs < ahi && bj + bs < bhi && chEq a (bi + bs) b (bj + bs) then
      extendHi a b ahi bhi fuel (bi, bj, bs + 1)
    else (bi, bj, bs)

/-- difflib `SequenceMatcher.find_longest_match` on `a[alo:ahi]` and
`b[blo:bhi]`. -/
def flm (a b : List Char) (alo ahi blo bhi : Nat) : Nat × Nat × Nat :=
  let st := flmLoops a b alo ahi blo bhi
  let st2 := extendLo a b alo blo st.1 st
  extendHi a b ahi bhi bhi st2

/-- Total size of the matching blocks of difflib
`SequenceMatcher.get_matching_blocks`, computed by the standard recursion on
the two sub-ranges around the longest match.  The fuel argument bounds the
recursion depth; `matchSum` is exact whenever
`(ahi - alo) + (bhi - blo) < fuel`, which holds at every call below. -/
def matchSum (a b : List Char) : Nat → Nat → Nat → Nat → Nat → Nat
  | 0, _, _, _, _ => 0
  | fuel + 1, alo, ahi, blo, bhi =>
    let m := flm a b alo ahi blo bhi
    if m.2.2 = 0 then 0
    else
      m.2.2 + matchSum a b fuel alo m.1 blo m.2.1 +
        matchSum a b fuel (m.1 + m.2.2) ahi (m.2.1 + m.2.2) bhi

/-- `M` in difflib's `ratio = 2.0 * M / T`: the total number of matched
characters between `a` and `b`. -/
def seqMatches (a b : List Char) : Nat :=
  matchSum a b (a.length + b.length + 1) 0 a.length 0 b.length

/-- Python's `round` (half to even) of the exact rational `num / den`,
`den ≠ 0`. -/
def roundHalfEven (num den : Nat) : Nat :=
  let q := num / den
  let r := num % den
  if 2 * r < den then q
  else if den < 2 * r then q + 1
  else if q % 2 = 0 then q else q + 1

/-- fuzzywuzzy `fuzz.ratio` on two already-processed strings: the
`check_for_none` / `check_for_equivalence` / `check_empty_string` decorators
(equal strings score 100; otherwise an empty string scores 0), then
`utils.intr(100 * SequenceMatcher(None, s1, s2).ratio())`, i.e. the rounded
`200 * M / (len(s1) + len(s2))`. -/
def fuzz_ratio (s1 s2 : List Char) : Nat :=
  if s1 = s2 then 100
  else if s1 = [] || s2 = [] then 0
  else roundHalfEven (200 * seqMatches s1 s2) (s1.length + s2.length)

/-- fuzzywuzzy `fuzz.token_sort_ratio(s1, s2)` (defaults: `partial=False`,
`force_ascii=True`, `full_process=True`). -/
def token_sort_ratio (s1 s2 : String) : Nat :=
  fuzz_ratio (process_and_sort s1.data) (process_and_sort s2.data)

/-- Python `str.lower()` on a whole string. -/
def pyStrLower (s : String) : String := String.mk (s.data.map lowerCh)

/-- The similarity `app.py` line 99 computes for one knowledge-base entry:
`fuzz.token_sort_ratio(question.lower(), q.lower())`. -/
def similarity (question q : String) : Nat :=
  token_sort_ratio (pyStrLower question) (pyStrLower q)

/-- One row of a knowledge-base sheet: `qa['Questions']` is `none` when the
stored value is not a string (the case `find_best_match` skips), and
`qa['Answers']` is its answer text. -/
structure QA where
  questions : Option String
  answers : String
deriving DecidableEq

/-- The body of the inner loop of `find_best_match` (`app.py` lines
95–102): skip entries whose stored question is not a string; otherwise
score it and keep `(qa['Answers'], sheet)` only when the score is strictly
above the best so far *and* at least the threshold. -/
def fbmInner (question : String) (threshold : Nat) (sheet : String)
    (st : Option (String × String) × Nat) (qa : QA) :
    Option (String × String) × Nat :=
  match qa.questions with
  | none => st
  | some q =>
    let score := similarity question q
    if st.2 < score ∧ threshold ≤ score then (some (qa.answers, sheet), score)
    else st

/-- `app.py` lines 91–103, `find_best_match(question, data, threshold=80)`:
starting from `best_match = None, highest_score = 0`, iterate over the
sheets of `data` (a dict in insertion order) and their question/answer
rows, running `fbmInner` on each row. -/
def find_best_match (question : String) (data : List (String × List QA))
    (threshold : Nat := 80) : Option (String × String) × Nat :=
  data.foldl (fun st sp => sp.2.foldl (fbmInner question threshold sp.1) st)
    (none, 0)

/-- The flattened traversal of `find_best_match`: for each string-valued
entry, in traversal order, the candidate result `(answers, sheet)` it would
contribute together with its similarity score. -/
def scoredEntries (question : String) (data : List (String × List QA)) :
    List ((String × String) × Nat) :=
  data.flatMap
    (fun sp =>
      sp.2.filterMap
        (fun qa => qa.questions.map (fun q => ((qa.answers, sp.1), similarity question q))))

/-- The loop body of `find_best_match` expressed on one pre-scored
candidate `((answers, sheet), score)`. -/
def fbmStep (threshold : Nat) (st : Option (String × String) × Nat)
    (e : (String × String) × Nat) : Option (String × String) × Nat :=
  if st.2 < e.2 ∧ threshold ≤ e.2 then (some e.1, e.2) else st

/-- The maximum of the scores of `l` that reached the threshold, `0` when
none did. -/
def maxTh (threshold : Nat) (l : List ((String × String) × Nat)) : Nat :=
  ((l.map Prod.snd).filter (fun s => decide (threshold ≤ s))).foldl max 0

/-- The extensional value of the `find_best_match` fold: the second
component is the best thresholded score (`0` if none reached the
threshold), the first is the first entry attaining it (`none` if the best
thresholded score is `0`). -/
def fbmSpec (threshold : Nat) (l : List ((String × String) × Nat)) :
    Option (String × String) × Nat :=
  (if 0 < maxTh threshold l then
      (l.find? (fun e => decide (e.2 = maxTh threshold l))).map Prod.fst
    else none,
   maxTh threshold l)

/-- The per-character transformation a knowledge-base or query string
undergoes before token splitting, on ASCII text: the `str.lower()` of
`find_best_match` line 99, then the `\W`-to-space replacement and
lowercasing of `full_process` (`asciidammit` is the identity on ASCII). -/
def pyG : Char → Char := fun c => lowerCh (wrep (lowerCh c))

/-- An arbitrary Python value handed to `clean_input`: a string or one of
several non-string shapes. -/
inductive PyVal where
  | str : String → PyVal
  | intV : Int → PyVal
  | boolV : Bool → PyVal
  | noneV : PyVal
  | listV : List PyVal → PyVal

/-- `app.py` lines 106–111, `clean_input(text)`: non-strings map to `""`;
strings are stripped and their whitespace runs collapsed to single spaces
by `re.sub(r'\s+', ' ', text)`. -/
def clean_input (v : PyVal) : String :=
  match v with
  | .str s => String.mk (collapseWs (pyStrip s.data))
  | _ => ""

/-- The fixed context string of `generate_gemini_response`. -/
def gemini_context : String :=
  "Kepler College is a higher learning institution in Rwanda offering programs in Project Management, Business Analytics, and degrees through a partnership with Southern New Hampshire University (SNHU)."

/-- The prompt `generate_gemini_response` builds from a question. -/
def gemini_prompt (question : String) : String :=
  "Question: " ++ question ++ "\nContext: " ++ gemini_context ++
    "\nAnswer based on the context or general knowledge about Kepler College, but keep it concise and relevant."

/-- `app.py` lines 114–121, `generate_gemini_response(model, question)`:
the generation call (`model.generate_content` and the `response.text`
accessor, either of which may raise) is modelled as a function into
`Except`; the `try/except` boundary maps an exception `e` to the text
`f"Error generating response: {e}"`.  The return type `String` embeds the
guarantee that no exception escapes. -/
def generate_gemini_response (model : String → Except String String)
    (question : String) : String :=
  match model (gemini_prompt question) with
  | .ok t => t
  | .error e => "Error generating response: " ++ e

/-! ### Fold characterisation of `find_best_match` -/

theorem fbmInner_skip (question : String) (threshold : Nat) (sheet : String)
    (st : Option (String × String) × Nat) (ans : String) :
    fbmInner question threshold sheet st ⟨none, ans⟩ = st := rfl

set_option maxHeartbeats 1000000 in
theorem fbmInner_score (question : String) (threshold : Nat) (sheet : String)
    (st : Option (String × String) × Nat) (q ans : String) :
    fbmInner question threshold sheet st ⟨some q, ans⟩ =
      fbmStep threshold st ((ans, sheet), similarity question q) := by
  unfold fbmInner fbmStep
  rfl

theorem foldl_fbmInner_eq (question : String) (threshold : Nat) (sheet : String)
    (qas : List QA) :
    ∀ st : Option (String × String) × Nat,
      qas.foldl (fbmInner question threshold sheet) st =
        (qas.filterMap (fun qa => qa.questions.map
            (fun q => ((qa.answers, sheet), similarity question q)))).foldl
          (fbmStep threshold) st := by
  induction qas with
  | nil => intro st; rfl
  | cons qa qas ih =>
    intro st
    rcases qa with ⟨qopt, ans⟩
    cases qopt with
    | none =>
      rw [List.foldl_cons, fbmInner_skip,
        List.filterMap_cons_none (by rfl)]
      exact ih st
    | some q =>
      rw [List.foldl_cons, fbmInner_score,
        List.filterMap_cons_some (by rfl), List.foldl_cons]
      exact ih _

theorem find_best_match_eq_foldl (question : String) (threshold : Nat)
    (data : List (String × List QA)) :
    find_best_match question data threshold =
      (scoredEntries question data).foldl (fbmStep threshold) (none, 0) := by
  show data.foldl _ (none, 0) = _
  generalize (none, 0) = st
  induction data generalizing st with
  | nil => rfl
  | cons d data ih =>
    simp only [List.foldl_cons, scoredEntries, List.flatMap_cons, List.foldl_append]
    rw [foldl_fbmInner_eq]
    exact ih _

/-! ### Maximum lemmas -/

theorem foldl_max_init (xs : List Nat) : ∀ a : Nat, xs.foldl max a = max a (xs.foldl max 0) := by
  induction xs with
  | nil => intro a; simp
  | cons x xs ih =>
    intro a
    simp only [List.foldl_cons]
    rw [ih (max a x), ih (max 0 x), Nat.zero_max, Nat.max_assoc]

theorem le_foldl_max (xs : List Nat) : ∀ a : Nat, a ≤ xs.foldl max a := by
  induction xs with
  | nil => intro a; exact Nat.le_refl a
  | cons x xs ih =>
    intro a
    exact Nat.le_trans (Nat.le_max_left a x) (ih (max a x))

theorem mem_le_foldl_max (xs : List Nat) (b : Nat) (hb : b ∈ xs) :
    ∀ a : Nat, b ≤ xs.foldl max a := by
  induction xs with
  | nil => cases hb
  | cons x xs ih =>
    intro a
    rcases List.mem_cons.mp hb with h | h
    · subst h
      exact Nat.le_trans (Nat.le_max_right a b) (le_foldl_max xs _)
    · exact ih h _

theorem foldl_max_mem (xs : List Nat) : ∀ a : Nat, xs.foldl max a = a ∨ xs.foldl max a ∈ xs := by
  induction xs with
  | nil => intro a; exact Or.inl rfl
  | cons x xs ih =>
    intro a
    rcases ih (max a x) with h | h
    · rcases max_choice a x with hax | hax
      · exact Or.inl (by rw [List.foldl_cons, h, hax])
      · exact Or.inr (by rw [List.foldl_cons, h, hax]; exact List.mem_cons_self x xs)
    · exact Or.inr (List.mem_cons_of_mem x h)

theorem foldl_max_le (xs : List Nat) (c : Nat) (hxs : ∀ x ∈ xs, x ≤ c) :
    ∀ a : Nat, a ≤ c → xs.foldl max a ≤ c := by
  induction xs with
  | nil => intro a ha; exact ha
  | cons x xs ih =>
    intro a ha
    exact ih (fun y hy => hxs y (List.mem_cons_of_mem x hy)) _
      (Nat.max_le.mpr ⟨ha, hxs x (List.mem_cons_self x xs)⟩)

theorem maxTh_le_of_mem (threshold : Nat) (l : List ((String × String) × Nat))
    (e : (String × String) × Nat) (he : e ∈ l) (hth : threshold ≤ e.2) :
    e.2 ≤ maxTh threshold l := by
  apply mem_le_foldl_max
  exact List.mem_filter.mpr ⟨List.mem_map_of_mem Prod.snd he, by simpa using hth⟩

theorem maxTh_mem (threshold : Nat) (l : List ((String × String) × Nat))
    (hpos : 0 < maxTh threshold l) :
    ∃ e ∈ l, e.2 = maxTh threshold l ∧ threshold ≤ maxTh threshold l := by
  rcases foldl_max_mem ((l.map Prod.snd).filter (fun s => decide (threshold ≤ s))) 0 with h | h
  · exact absurd (show maxTh threshold l = 0 from h) (by omega)
  · have h' := List.mem_filter.mp h
    rcases List.mem_map.mp h'.1 with ⟨e, he, hesnd⟩
    exact ⟨e, he, hesnd, by simpa using h'.2⟩

theorem maxTh_le (threshold : Nat) (l : List ((String × String) × Nat)) (c : Nat)
    (hl : ∀ e ∈ l, e.2 ≤ c) : maxTh threshold l ≤ c := by
  apply foldl_max_le
  · intro x hx
    rcases List.mem_map.mp (List.mem_filter.mp hx).1 with ⟨e, he, hesnd⟩
    exact hesnd ▸ hl e he
  · exact Nat.zero_le c

theorem maxTh_append_single (threshold : Nat) (l : List ((String × String) × Nat))
    (e : (String × String) × Nat) :
    maxTh threshold (l ++ [e]) =
      max (maxTh threshold l) (if threshold ≤ e.2 then e.2 else 0) := by
  unfold maxTh
  rw [List.map_append, List.filter_append, List.foldl_append, foldl_max_init]
  by_cases h : threshold ≤ e.2
  · simp [h]
  · simp [h]

theorem fbmSpec_fst_stable (threshold : Nat) (l : List ((String × String) × Nat))
    (e : (String × String) × Nat) (hM : maxTh threshold (l ++ [e]) = maxTh threshold l) :
    (fbmSpec threshold (l ++ [e])).1 = (fbmSpec threshold l).1 := by
  unfold fbmSpec
  rw [hM]
  by_cases hm : 0 < maxTh threshold l
  · rw [if_pos hm, if_pos hm, List.find?_append]
    obtain ⟨e', he', hsnd, -⟩ := maxTh_mem threshold l hm
    have hsome : (l.find? (fun x => decide (x.2 = maxTh threshold l))).isSome :=
      List.find?_isSome.mpr ⟨e', he', by simp [hsnd]⟩
    obtain ⟨y, hy⟩ := Option.isSome_iff_exists.mp hsome
    rw [hy]
    rfl
  · rw [if_neg hm, if_neg hm]

theorem foldl_fbmStep_eq (threshold : Nat) (l : List ((String × String) × Nat)) :
    l.foldl (fbmStep threshold) (none, 0) = fbmSpec threshold l := by
  induction l using List.reverseRecOn with
  | nil => simp [fbmSpec, maxTh]
  | append_singleton l e ih =>
    rw [List.foldl_append, ih]
    have hM := maxTh_append_single threshold l e
    by_cases hcond : maxTh threshold l < e.2 ∧ threshold ≤ e.2
    · -- the new entry updates the state
      have hM' : maxTh threshold (l ++ [e]) = e.2 := by
        rw [hM, if_pos hcond.2]
        exact Nat.max_eq_right (Nat.le_of_lt hcond.1)
      have hstep : fbmStep threshold (fbmSpec threshold l) e = (some e.1, e.2) := by
        unfold fbmStep fbmSpec
        exact if_pos hcond
      rw [List.foldl_cons, List.foldl_nil, hstep]
      unfold fbmSpec
      rw [hM']
      have hpos : 0 < e.2 := Nat.lt_of_le_of_lt (Nat.zero_le _) hcond.1
      rw [if_pos hpos, List.find?_append]
      have hnone : l.find? (fun x => decide (x.2 = e.2)) = none := by
        rw [List.find?_eq_none]
        intro x hx
        simp only [decide_eq_true_eq]
        intro hx2
        have := maxTh_le_of_mem threshold l x hx (hx2 ▸ hcond.2)
        omega
      rw [hnone]
      simp
    · -- the state is unchanged
      have hstep : fbmStep threshold (fbmSpec threshold l) e = fbmSpec threshold l := by
        unfold fbmStep fbmSpec
        exact if_neg hcond
      rw [List.foldl_cons, List.foldl_nil, hstep]
      have hM' : maxTh threshold (l ++ [e]) = maxTh threshold l := by
        rw [hM]
        by_cases hth : threshold ≤ e.2
        · rw [if_pos hth]
          have : e.2 ≤ maxTh threshold l := by
            by_contra hlt
            exact hcond ⟨Nat.lt_of_not_le hlt, hth⟩
          exact Nat.max_eq_left this
        · rw [if_neg hth]
          exact Nat.max_eq_left (Nat.zero_le _)
      have hfst := fbmSpec_fst_stable threshold l e hM'
      have hsnd : (fbmSpec threshold (l ++ [e])).2 = (fbmSpec threshold l).2 := by
        unfold fbmSpec
        simpa using hM'
      exact (Prod.ext hfst hsnd).symm

theorem find_best_match_spec (question : String) (data : List (String × List QA))
    (threshold : Nat) :
    find_best_match question data threshold =
      fbmSpec threshold (scoredEntries question data) := by
  rw [find_best_match_eq_foldl, foldl_fbmStep_eq]

theorem fbmSpec_snd (threshold : Nat) (l : List ((String × String) × Nat)) :
    (fbmSpec threshold l).2 = maxTh threshold l := rfl

theorem fbmSpec_fst_none_iff (threshold : Nat) (l : List ((String × String) × Nat)) :
    (fbmSpec threshold l).1 = none ↔ maxTh threshold l = 0 := by
  unfold fbmSpec
  by_cases hm : 0 < maxTh threshold l
  · rw [if_pos hm]
    obtain ⟨e, he, hsnd, -⟩ := maxTh_mem threshold l hm
    have hsome : (l.find? (fun x => decide (x.2 = maxTh threshold l))).isSome :=
      List.find?_isSome.mpr ⟨e, he, by simp [hsnd]⟩
    obtain ⟨y, hy⟩ := Option.isSome_iff_exists.mp hsome
    rw [hy]
    simp only [Option.map_some']
    constructor
    · intro h
      cases h
    · intro h
      omega
  · rw [if_neg hm]
    constructor
    · intro _
      omega
    · intro _
      rfl

/-! ### Splitting lemmas -/

theorem nonSpace_eq_false_iff (c : Char) : nonSpace c = false ↔ isPySpace c = true := by
  simp [nonSpace]

theorem nonSpace_eq_true_iff (c : Char) : nonSpace c = true ↔ isPySpace c = false := by
  simp [nonSpace]

theorem pysplit_nil : pysplit [] = [] := rfl

theorem pysplitAux_ne (s : List Char) :
    ∀ acc : List Char, acc ≠ [] →
      pysplitAux s acc =
        (acc.reverse ++ s.takeWhile nonSpace) :: pysplit (s.dropWhile nonSpace) := by
  induction s with
  | nil =>
    intro acc h
    simp [pysplitAux, h, pysplit]
  | cons c cs ih =>
    intro acc h
    by_cases hc : isPySpace c
    · have hns : nonSpace c = false := (nonSpace_eq_false_iff c).mpr hc
      simp only [pysplitAux, hc, if_true, if_neg h, List.takeWhile_cons, List.dropWhile_cons,
        hns, Bool.false_eq_true, if_false, List.append_nil]
      congr 1
      show pysplitAux cs [] = pysplit (c :: cs)
      simp only [pysplit, pysplitAux, hc, if_true, if_pos rfl]
    · have hc' : isPySpace c = false := by simpa using hc
      have hns : nonSpace c = true := (nonSpace_eq_true_iff c).mpr hc'
      simp only [pysplitAux, hc', Bool.false_eq_true, if_false, List.takeWhile_cons,
        List.dropWhile_cons, hns, if_true]
      rw [ih (c :: acc) (by simp)]
      simp [List.reverse_cons, List.append_assoc]

theorem pysplit_cons_space {c : Char} (cs : List Char) (hc : isPySpace c = true) :
    pysplit (c :: cs) = pysplit cs := by
  show pysplitAux (c :: cs) [] = pysplitAux cs []
  simp only [pysplitAux, hc, if_true, if_pos rfl]

theorem pysplit_cons_nonspace {c : Char} (cs : List Char) (hc : isPySpace c = false) :
    pysplit (c :: cs) = (c :: cs.takeWhile nonSpace) :: pysplit (cs.dropWhile nonSpace) := by
  show pysplitAux (c :: cs) [] = _
  simp only [pysplitAux, hc, Bool.false_eq_true, if_false]
  rw [pysplitAux_ne cs [c] (by simp)]
  simp

theorem dropWhile_cons_head {p : Char → Bool} {l : List Char} {d : Char} {ds : List Char}
    (h : l.dropWhile p = d :: ds) : p d = false := by
  have hh := List.head?_dropWhile_not p l
  rw [h] at hh
  simpa using hh

theorem takeWhile_append_of_allP {p : Char → Bool} (as : List Char) (bs : List Char)
    (h : as.dropWhile p = []) :
    (as ++ bs).takeWhile p = as ++ bs.takeWhile p ∧
      (as ++ bs).dropWhile p = bs.dropWhile p := by
  induction as with
  | nil => simp
  | cons a as ih =>
    have ha : p a = true := by
      by_contra hpa
      rw [List.dropWhile_cons, if_neg (by simpa using hpa)] at h
      cases h
    rw [List.dropWhile_cons, if_pos ha] at h
    obtain ⟨h1, h2⟩ := ih h
    constructor
    · rw [List.cons_append, List.takeWhile_cons, if_pos ha, h1, List.cons_append]
    · rw [List.cons_append, List.dropWhile_cons, if_pos ha, h2]

theorem takeWhile_append_of_stop {p : Char → Bool} (as : List Char) (bs : List Char)
    {d : Char} {ds : List Char} (h : as.dropWhile p = d :: ds) :
    (as ++ bs).takeWhile p = as.takeWhile p ∧
      (as ++ bs).dropWhile p = (d :: ds) ++ bs := by
  induction as with
  | nil =>
    cases h
  | cons a as ih =>
    by_cases ha : p a
    · rw [List.dropWhile_cons, if_pos ha] at h
      obtain ⟨h1, h2⟩ := ih h
      constructor
      · rw [List.cons_append, List.takeWhile_cons, if_pos ha, h1, List.takeWhile_cons,
          if_pos ha]
      · rw [List.cons_append, List.dropWhile_cons, if_pos ha, h2]
    · rw [List.dropWhile_cons, if_neg ha] at h
      cases h
      constructor
      · rw [List.cons_append, List.takeWhile_cons, if_neg ha, List.takeWhile_cons, if_neg ha]
      · rw [List.cons_append, List.dropWhile_cons, if_neg ha]

theorem pysplit_append_space {w : Char} (hw : isPySpace w = true) :
    ∀ (n : Nat) (xs ys : List Char), xs.length ≤ n →
      pysplit (xs ++ w :: ys) = pysplit xs ++ pysplit ys := by
  intro n
  induction n with
  | zero =>
    intro xs ys hxs
    have hx : xs = [] := List.length_eq_zero.mp (Nat.le_zero.mp hxs)
    subst hx
    rw [List.nil_append, pysplit_cons_space ys hw, pysplit_nil, List.nil_append]
  | succ n ih =>
    intro xs ys hxs
    match xs with
    | [] =>
      rw [List.nil_append, pysplit_cons_space ys hw, pysplit_nil, List.nil_append]
    | c :: cs =>
      have hcs : cs.length ≤ n := by
        simp only [List.length_cons] at hxs
        omega
      by_cases hc : isPySpace c
      · rw [List.cons_append, pysplit_cons_space _ hc, pysplit_cons_space cs hc]
        exact ih cs ys hcs
      · have hc' : isPySpace c = false := by simpa using hc
        rw [List.cons_append, pysplit_cons_nonspace _ hc', pysplit_cons_nonspace cs hc']
        rcases hdrop : cs.dropWhile nonSpace with _ | ⟨d, r⟩
        · obtain ⟨ht, hd⟩ := takeWhile_append_of_allP cs (w :: ys) hdrop
          have htcs : cs.takeWhile nonSpace = cs := by
            have := List.takeWhile_append_dropWhile nonSpace cs
            rw [hdrop, List.append_nil] at this
            exact this
          have hwns : nonSpace w = false := (nonSpace_eq_false_iff w).mpr hw
          rw [ht, hd, List.takeWhile_cons, List.dropWhile_cons, hwns]
          simp only [Bool.false_eq_true, if_false, List.append_nil]
          rw [pysplit_cons_space ys hw, htcs]
          simp [pysplit_nil]
        · have hdns : nonSpace d = false := dropWhile_cons_head hdrop
          have hdsp : isPySpace d = true := (nonSpace_eq_false_iff d).mp hdns
          have hr : r.length ≤ n := by
            have hsub := (show (List.dropWhile nonSpace cs).Sublist cs from List.dropWhile_sublist nonSpace).length_le
            rw [hdrop] at hsub
            simp only [List.length_cons] at hsub
            omega
          obtain ⟨ht, hd⟩ := takeWhile_append_of_stop cs (w :: ys) hdrop
          rw [ht, hd, List.cons_append, pysplit_cons_space _ hdsp,
            pysplit_cons_space r hdsp, ih r ys hr]
          rfl

/-! ### Join, strip and whitespace-run lemmas -/

theorem joinSp_cons_ne (t : List Char) (ts : List (List Char)) (h : ts ≠ []) :
    joinSp (t :: ts) = t ++ ' ' :: joinSp ts := by
  cases ts with
  | nil => exact absurd rfl h
  | cons t₂ ts₂ => rfl

theorem isPySpace_space : isPySpace ' ' = true := by decide

theorem pysplit_allspace (w : List Char) (hw : ∀ x ∈ w, isPySpace x = true) :
    pysplit w = [] := by
  induction w with
  | nil => rfl
  | cons c cs ih =>
    rw [pysplit_cons_space cs (hw c (List.mem_cons_self c cs))]
    exact ih (fun x hx => hw x (List.mem_cons_of_mem c hx))

theorem pysplit_append_allspace (t w : List Char) (hw : ∀ x ∈ w, isPySpace x = true) :
    pysplit (t ++ w) = pysplit t := by
  cases w with
  | nil => simp
  | cons d ds =>
    rw [pysplit_append_space (hw d (List.mem_cons_self d ds)) t.length t ds (Nat.le_refl _),
      pysplit_allspace ds (fun x hx => hw x (List.mem_cons_of_mem d hx)), List.append_nil]

theorem pysplit_dropWhile (s : List Char) :
    pysplit (s.dropWhile isPySpace) = pysplit s := by
  induction s with
  | nil => rfl
  | cons c cs ih =>
    by_cases hc : isPySpace c
    · rw [List.dropWhile_cons, if_pos hc, ih, pysplit_cons_space cs hc]
    · rw [List.dropWhile_cons, if_neg hc]

theorem pyStrip_append (s : List Char) :
    ∃ w : List Char, (∀ x ∈ w, isPySpace x = true) ∧
      pyStrip s ++ w = s.dropWhile isPySpace := by
  refine ⟨((s.dropWhile isPySpace).reverse.takeWhile isPySpace).reverse, ?_, ?_⟩
  · intro x hx
    exact List.mem_takeWhile_imp (List.mem_reverse.mp hx)
  · unfold pyStrip
    rw [← List.reverse_append, List.takeWhile_append_dropWhile, List.reverse_reverse]

theorem pysplit_pyStrip (s : List Char) : pysplit (pyStrip s) = pysplit s := by
  obtain ⟨w, hw, hsw⟩ := pyStrip_append s
  have h1 : pysplit (pyStrip s ++ w) = pysplit (pyStrip s) :=
    pysplit_append_allspace _ w hw
  rw [hsw] at h1
  exact h1.symm.trans (pysplit_dropWhile s)

theorem pysplit_joinSp (ts : List (List Char)) :
    pysplit (joinSp ts) = (ts.map pysplit).flatten := by
  induction ts with
  | nil => rfl
  | cons t ts ih =>
    cases ts with
    | nil => simp [joinSp]
    | cons t₂ ts₂ =>
      rw [joinSp_cons_ne t _ (by simp),
        pysplit_append_space isPySpace_space t.length t _ (Nat.le_refl _), ih]
      simp [List.flatten_cons]

theorem map_joinSp (f : Char → Char) (hf : f ' ' = ' ') (ts : List (List Char)) :
    (joinSp ts).map f = joinSp (ts.map (List.map f)) := by
  induction ts with
  | nil => rfl
  | cons t ts ih =>
    cases ts with
    | nil => rfl
    | cons t₂ ts₂ =>
      have h2 : joinSp (List.map f t :: List.map (List.map f) (t₂ :: ts₂)) =
          List.map f t ++ ' ' :: joinSp (List.map (List.map f) (t₂ :: ts₂)) :=
        joinSp_cons_ne _ _ (by simp)
      calc (joinSp (t :: t₂ :: ts₂)).map f
          = List.map f t ++ f ' ' :: (joinSp (t₂ :: ts₂)).map f := by
            rw [joinSp_cons_ne t _ (by simp)]
            simp
        _ = List.map f t ++ ' ' :: joinSp (List.map (List.map f) (t₂ :: ts₂)) := by
            rw [hf, ih]
        _ = joinSp (List.map (List.map f) (t :: t₂ :: ts₂)) := h2.symm

theorem pysplit_map (f : Char → Char)
    (hf : ∀ c, isPySpace c = true → isPySpace (f c) = true) :
    ∀ (n : Nat) (s : List Char), s.length ≤ n →
      pysplit (s.map f) = ((pysplit s).map (fun t => pysplit (t.map f))).flatten := by
  intro n
  induction n with
  | zero =>
    intro s hs
    have hx : s = [] := List.length_eq_zero.mp (Nat.le_zero.mp hs)
    subst hx
    rfl
  | succ n ih =>
    intro s hs
    match s with
    | [] => rfl
    | c :: cs =>
      have hcs : cs.length ≤ n := by
        simp only [List.length_cons] at hs
        omega
      by_cases hc : isPySpace c
      · rw [List.map_cons, pysplit_cons_space _ (hf c hc), pysplit_cons_space cs hc,
          ih cs hcs]
      · have hc' : isPySpace c = false := by simpa using hc
        rw [pysplit_cons_nonspace cs hc']
        rcases hdrop : cs.dropWhile nonSpace with _ | ⟨d, r⟩
        · have htcs : cs.takeWhile nonSpace = cs := by
            have h := List.takeWhile_append_dropWhile nonSpace cs
            rw [hdrop, List.append_nil] at h
            exact h
          rw [htcs, pysplit_nil]
          simp
        · have hdns : nonSpace d = false := dropWhile_cons_head hdrop
          have hdsp : isPySpace d = true := (nonSpace_eq_false_iff d).mp hdns
          have hr : r.length ≤ n := by
            have hsub := (show (List.dropWhile nonSpace cs).Sublist cs from List.dropWhile_sublist nonSpace).length_le
            rw [hdrop] at hsub
            simp only [List.length_cons] at hsub
            omega
          have hcseq : (cs.takeWhile nonSpace) ++ d :: r = cs := by
            have h := List.takeWhile_append_dropWhile nonSpace cs
            rw [hdrop] at h
            exact h
          have hmap : (c :: cs).map f =
              ((c :: cs.takeWhile nonSpace).map f) ++ f d :: r.map f := by
            conv_lhs => rw [← hcseq]
            simp
          rw [hmap,
            pysplit_append_space (hf d hdsp) ((c :: cs.takeWhile nonSpace).map f).length
              _ _ (Nat.le_refl _),
            ih r hr, pysplit_cons_space r hdsp]
          simp

/-! ### Sorting lemmas -/

theorem lexLe_total (s t : List Char) : lexLe s t = true ∨ lexLe t s = true := by
  induction s generalizing t with
  | nil => exact Or.inl rfl
  | cons a as ih =>
    cases t with
    | nil => exact Or.inr rfl
    | cons b bs =>
      by_cases hab : a.toNat < b.toNat
      · left
        simp [lexLe, hab]
      · by_cases hba : b.toNat < a.toNat
        · right
          simp [lexLe, hba]
        · rcases ih bs with h | h
          · left
            simp [lexLe, hab, hba, h]
          · right
            simp [lexLe, hab, hba, h]

theorem lexLe_antisymm : ∀ {s t : List Char}, lexLe s t = true → lexLe t s = true → s = t := by
  intro s
  induction s with
  | nil =>
    intro t h1 h2
    cases t with
    | nil => rfl
    | cons b bs => simp [lexLe] at h2
  | cons a as ih =>
    intro t h1 h2
    cases t with
    | nil => simp [lexLe] at h1
    | cons b bs =>
      by_cases hab : a.toNat < b.toNat
      · have hba : ¬ b.toNat < a.toNat := by omega
        simp [lexLe, hab, hba] at h2
      · by_cases hba : b.toNat < a.toNat
        · simp [lexLe, hab, hba] at h1
        · have heqn : a.toNat = b.toNat := by omega
          have heq : a = b := Char.ext (UInt32.ext heqn)
          subst heq
          simp only [lexLe, hab, if_false, hba] at h1 h2
          rw [ih h1 h2]

theorem lexLe_trans :
    ∀ {s t u : List Char}, lexLe s t = true → lexLe t u = true → lexLe s u = true := by
  intro s
  induction s with
  | nil => intro t u _ _; rfl
  | cons a as ih =>
    intro t u h1 h2
    cases t with
    | nil => simp [lexLe] at h1
    | cons b bs =>
      cases u with
      | nil => simp [lexLe] at h2
      | cons c cs =>
        simp only [lexLe] at h1 h2 ⊢
        by_cases hab : a.toNat < b.toNat
        · by_cases hbc : b.toNat < c.toNat
          · rw [if_pos (by omega : a.toNat < c.toNat)]
          · by_cases hcb : c.toNat < b.toNat
            · rw [if_neg hbc, if_pos hcb] at h2
              exact Bool.noConfusion h2
            · rw [if_pos (by omega : a.toNat < c.toNat)]
        · by_cases hba : b.toNat < a.toNat
          · rw [if_neg hab, if_pos hba] at h1
            exact Bool.noConfusion h1
          · by_cases hbc : b.toNat < c.toNat
            · rw [if_pos (by omega : a.toNat < c.toNat)]
            · by_cases hcb : c.toNat < b.toNat
              · rw [if_neg hbc, if_pos hcb] at h2
                exact Bool.noConfusion h2
              · rw [if_neg hab, if_neg hba] at h1
                rw [if_neg hbc, if_neg hcb] at h2
                rw [if_neg (by omega : ¬ a.toNat < c.toNat),
                  if_neg (by omega : ¬ c.toNat < a.toNat)]
                exact ih h1 h2

theorem insertTok_perm (x : List Char) (l : List (List Char)) :
    (insertTok x l).Perm (x :: l) := by
  induction l with
  | nil => exact List.Perm.refl _
  | cons y ys ih =>
    simp only [insertTok]
    by_cases h : lexLe x y
    · rw [if_pos h]
    · rw [if_neg h]
      exact (ih.cons y).trans (List.Perm.swap x y ys)

theorem pysort_perm (l : List (List Char)) : (pysort l).Perm l := by
  induction l with
  | nil => exact List.Perm.refl _
  | cons x xs ih => exact (insertTok_perm x (pysort xs)).trans (ih.cons x)

theorem insertTok_sorted (x : List Char) (l : List (List Char))
    (hl : l.Sorted (fun a b => lexLe a b = true)) :
    (insertTok x l).Sorted (fun a b => lexLe a b = true) := by
  induction l with
  | nil => simp [insertTok]
  | cons y ys ih =>
    rw [List.sorted_cons] at hl
    simp only [insertTok]
    by_cases h : lexLe x y
    · rw [if_pos h, List.sorted_cons]
      refine ⟨?_, List.sorted_cons.mpr hl⟩
      intro b hb
      rcases List.mem_cons.mp hb with hby | hbys
      · subst hby
        exact h
      · exact lexLe_trans h (hl.1 b hbys)
    · have h' : lexLe y x = true := (lexLe_total x y).resolve_left h
      rw [if_neg h, List.sorted_cons]
      refine ⟨?_, ih hl.2⟩
      intro b hb
      rcases List.mem_cons.mp ((insertTok_perm x ys).mem_iff.mp hb) with hbx | hbys
      · subst hbx
        exact h'
      · exact hl.1 b hbys

theorem pysort_sorted (l : List (List Char)) :
    (pysort l).Sorted (fun a b => lexLe a b = true) := by
  induction l with
  | nil => simp [pysort]
  | cons x xs ih => exact insertTok_sorted x (pysort xs) ih

theorem pysort_eq_of_perm (l₁ l₂ : List (List Char)) (h : l₁.Perm l₂) :
    pysort l₁ = pysort l₂ := by
  haveI : IsAntisymm (List Char) (fun a b => lexLe a b = true) :=
    ⟨fun _ _ => lexLe_antisymm⟩
  exact List.eq_of_perm_of_sorted
    ((pysort_perm l₁).trans (h.trans (pysort_perm l₂).symm))
    (pysort_sorted l₁) (pysort_sorted l₂)

/-! ### Token character lemmas -/

theorem pysplit_token_chars :
    ∀ (n : Nat) (s : List Char), s.length ≤ n →
      ∀ tok ∈ pysplit s, tok ≠ [] ∧ ∀ c ∈ tok, nonSpace c = true ∧ c ∈ s := by
  intro n
  induction n with
  | zero =>
    intro s hs tok htok
    have hx : s = [] := List.length_eq_zero.mp (Nat.le_zero.mp hs)
    subst hx
    cases htok
  | succ n ih =>
    intro s hs tok htok
    match s with
    | [] => cases htok
    | c :: cs =>
      have hcs : cs.length ≤ n := by
        simp only [List.length_cons] at hs
        omega
      by_cases hc : isPySpace c
      · rw [pysplit_cons_space cs hc] at htok
        obtain ⟨h1, h2⟩ := ih cs hcs tok htok
        exact ⟨h1, fun x hx => ⟨(h2 x hx).1, List.mem_cons_of_mem c (h2 x hx).2⟩⟩
      · have hc' : isPySpace c = false := by simpa using hc
        rw [pysplit_cons_nonspace cs hc'] at htok
        rcases List.mem_cons.mp htok with heq | hmem
        · subst heq
          refine ⟨by simp, ?_⟩
          intro x hx
          rcases List.mem_cons.mp hx with hxc | hxt
          · subst hxc
            exact ⟨(nonSpace_eq_true_iff x).mpr hc', List.mem_cons_self x cs⟩
          · exact ⟨List.mem_takeWhile_imp hxt,
              List.mem_cons_of_mem c ((List.takeWhile_sublist nonSpace).subset hxt)⟩
        · have hrlen : (cs.dropWhile nonSpace).length ≤ n := by
            have := (show (List.dropWhile nonSpace cs).Sublist cs from List.dropWhile_sublist nonSpace).length_le
            omega
          obtain ⟨h1, h2⟩ := ih _ hrlen tok hmem
          exact ⟨h1, fun x hx => ⟨(h2 x hx).1,
            List.mem_cons_of_mem c ((List.dropWhile_sublist nonSpace).subset (h2 x hx).2)⟩⟩

theorem pysplit_tokens_spec (s : List Char) :
    ∀ tok ∈ pysplit s, tok ≠ [] ∧ ∀ c ∈ tok, nonSpace c = true ∧ c ∈ s :=
  pysplit_token_chars s.length s (Nat.le_refl _)

theorem pysplit_token_self (tok : List Char) (hne : tok ≠ [])
    (hns : ∀ c ∈ tok, nonSpace c = true) : pysplit tok = [tok] := by
  match tok with
  | [] => exact absurd rfl hne
  | c :: cs =>
    have hc : isPySpace c = false :=
      (nonSpace_eq_true_iff c).mp (hns c (List.mem_cons_self c cs))
    rw [pysplit_cons_nonspace cs hc]
    have htw : cs.takeWhile nonSpace = cs :=
      List.takeWhile_eq_self_iff.mpr (fun x hx => hns x (List.mem_cons_of_mem c hx))
    have hdw : cs.dropWhile nonSpace = [] :=
      List.dropWhile_eq_nil_iff.mpr (fun x hx => hns x (List.mem_cons_of_mem c hx))
    rw [htw, hdw, pysplit_nil]

theorem flatten_map_singleton (ts : List (List Char)) :
    (ts.map (fun t => [t])).flatten = ts := by
  induction ts with
  | nil => rfl
  | cons t ts ih => simp [ih]

theorem pysplit_joinSp_pysplit (s : List Char) :
    pysplit (joinSp (pysplit s)) = pysplit s := by
  rw [pysplit_joinSp]
  have hmap : (pysplit s).map pysplit = (pysplit s).map (fun t => [t]) := by
    apply List.map_congr_left
    intro t ht
    obtain ⟨h1, h2⟩ := pysplit_tokens_spec s t ht
    exact pysplit_token_self t h1 (fun c hc => (h2 c hc).1)
  rw [hmap, flatten_map_singleton]

/-! ### Whitespace-collapse lemmas -/

theorem collapseAux_true_eq (s : List Char) :
    collapseAux true s = collapseAux false (s.dropWhile isPySpace) := by
  induction s with
  | nil => rfl
  | cons c cs ih =>
    by_cases hc : isPySpace c
    · rw [List.dropWhile_cons, if_pos hc, ← ih]
      simp only [collapseAux, hc, if_true]
    · have hc' : isPySpace c = false := by simpa using hc
      rw [List.dropWhile_cons, if_neg hc]
      simp only [collapseAux, hc', Bool.false_eq_true, if_false]

theorem collapseWs_cons_space {c : Char} (cs : List Char) (hc : isPySpace c = true) :
    collapseWs (c :: cs) = ' ' :: collapseWs (cs.dropWhile isPySpace) := by
  show collapseAux false (c :: cs) = _
  simp only [collapseAux, hc, if_true, Bool.false_eq_true, if_false]
  rw [collapseAux_true_eq]
  rfl

theorem collapseWs_cons_nonspace {c : Char} (cs : List Char) (hc : isPySpace c = false) :
    collapseWs (c :: cs) = c :: collapseWs cs := by
  show collapseAux false (c :: cs) = _
  simp only [collapseAux, hc, Bool.false_eq_true, if_false]
  rfl

theorem collapseWs_append_nonspace (u v : List Char)
    (hu : ∀ x ∈ u, isPySpace x = false) :
    collapseWs (u ++ v) = u ++ collapseWs v := by
  induction u with
  | nil => rfl
  | cons a as ih =>
    rw [List.cons_append, collapseWs_cons_nonspace _ (hu a (List.mem_cons_self a as)),
      ih (fun x hx => hu x (List.mem_cons_of_mem a hx)), List.cons_append]

theorem head?_append_ne {u v : List Char} (hu : u ≠ []) : (u ++ v).head? = u.head? := by
  cases u with
  | nil => exact absurd rfl hu
  | cons a as => rfl

theorem head?_dropWhile_false {p : Char → Bool} {l : List Char} {d : Char}
    (h : (l.dropWhile p).head? = some d) : p d = false := by
  rcases hdw : l.dropWhile p with _ | ⟨x, xs⟩
  · rw [hdw] at h
    cases h
  · rw [hdw] at h
    injection h with h
    subst h
    exact dropWhile_cons_head hdw

theorem collapseWs_eq_joinSp :
    ∀ (n : Nat) (t : List Char), t.length ≤ n →
      (∀ d, t.head? = some d → isPySpace d = false) →
      (∀ d, t.reverse.head? = some d → isPySpace d = false) →
      collapseWs t = joinSp (pysplit t) := by
  intro n
  induction n with
  | zero =>
    intro t ht _ _
    have hx : t = [] := List.length_eq_zero.mp (Nat.le_zero.mp ht)
    subst hx
    rfl
  | succ n ih =>
    intro t ht hlead htrail
    match t with
    | [] => rfl
    | c :: cs =>
      have hc : isPySpace c = false := hlead c rfl
      have hcs : cs.length ≤ n := by
        simp only [List.length_cons] at ht
        omega
      rw [collapseWs_cons_nonspace cs hc, pysplit_cons_nonspace cs hc]
      have hcseq := List.takeWhile_append_dropWhile nonSpace cs
      have htw : ∀ x ∈ cs.takeWhile nonSpace, isPySpace x = false :=
        fun x hx => (nonSpace_eq_true_iff x).mp (List.mem_takeWhile_imp hx)
      rcases hdrop : cs.dropWhile nonSpace with _ | ⟨d, r⟩
      · have hcs2 : cs.takeWhile nonSpace = cs := by
          rw [hdrop, List.append_nil] at hcseq
          exact hcseq
        rw [pysplit_nil, hcs2]
        have hnn : collapseWs cs = cs := by
          have h := collapseWs_append_nonspace cs [] (hcs2 ▸ htw)
          rw [List.append_nil] at h
          rw [h]
          show cs ++ collapseAux false [] = cs
          rw [show collapseAux false [] = ([] : List Char) from rfl, List.append_nil]
        rw [hnn]
        rfl
      · have hd : isPySpace d = true :=
          (nonSpace_eq_false_iff d).mp (dropWhile_cons_head hdrop)
        have hcseq' : cs.takeWhile nonSpace ++ d :: r = cs := by
          rw [← hdrop]
          exact hcseq
        have h1 : collapseWs cs = cs.takeWhile nonSpace ++ collapseWs (d :: r) := by
          conv_lhs => rw [← hcseq']
          exact collapseWs_append_nonspace _ _ htw
        rw [h1, collapseWs_cons_space r hd]
        have hr'' : r.dropWhile isPySpace ≠ [] := by
          intro hnil
          have hallr : ∀ x ∈ r, isPySpace x = true := List.dropWhile_eq_nil_iff.mp hnil
          have hrev : (c :: cs).reverse =
              r.reverse ++ d :: ((cs.takeWhile nonSpace).reverse ++ [c]) := by
            conv_lhs => rw [← hcseq']
            simp
          rcases hr : r.reverse with _ | ⟨x, xs⟩
          · have hdd : (c :: cs).reverse.head? = some d := by
              rw [hrev, hr]
              rfl
            have := htrail d hdd
            rw [hd] at this
            cases this
          · have hx : x ∈ r := List.mem_reverse.mp (hr ▸ List.mem_cons_self x xs)
            have hxx : (c :: cs).reverse.head? = some x := by
              rw [hrev, hr]
              rfl
            have hxf := htrail x hxx
            rw [hallr x hx] at hxf
            cases hxf
        have hrr := List.takeWhile_append_dropWhile isPySpace r
        have hrevr : (c :: cs).reverse.head? = (r.dropWhile isPySpace).reverse.head? := by
          have hrev2 : (c :: cs).reverse =
              (r.dropWhile isPySpace).reverse ++
                ((r.takeWhile isPySpace).reverse ++
                  (d :: ((cs.takeWhile nonSpace).reverse ++ [c]))) := by
            have hx : (c :: cs).reverse =
                r.reverse ++ d :: ((cs.takeWhile nonSpace).reverse ++ [c]) := by
              conv_lhs => rw [← hcseq']
              simp
            have hsplit : r.reverse =
                (r.dropWhile isPySpace).reverse ++ (r.takeWhile isPySpace).reverse := by
              rw [← List.reverse_append, hrr]
            rw [hx, hsplit, List.append_assoc]
          rw [hrev2, head?_append_ne (by simpa using hr'')]
        have hlen'' : (r.dropWhile isPySpace).length ≤ n := by
          have h1 := (show (List.dropWhile isPySpace r).Sublist r from List.dropWhile_sublist isPySpace).length_le
          have h2 := (show (List.dropWhile nonSpace cs).Sublist cs from List.dropWhile_sublist nonSpace).length_le
          rw [hdrop] at h2
          simp only [List.length_cons] at h2
          omega
        have hih := ih (r.dropWhile isPySpace) hlen''
          (fun e he => head?_dropWhile_false he)
          (fun e he => htrail e (by rw [hrevr]; exact he))
        rw [hih]
        have hps : pysplit (d :: r) = pysplit (r.dropWhile isPySpace) := by
          rw [pysplit_cons_space r hd, pysplit_dropWhile]
        rw [hps]
        have hpsne : pysplit (r.dropWhile isPySpace) ≠ [] := by
          rcases hrd : r.dropWhile isPySpace with _ | ⟨e, rest⟩
          · exact absurd hrd hr''
          · have he : isPySpace e = false := dropWhile_cons_head hrd
            rw [pysplit_cons_nonspace rest he]
            simp
        rw [joinSp_cons_ne _ _ hpsne]
        simp

theorem collapseWs_pyStrip (s : List Char) :
    collapseWs (pyStrip s) = joinSp (pysplit s) := by
  rw [← pysplit_pyStrip s]
  apply collapseWs_eq_joinSp (pyStrip s).length _ (Nat.le_refl _)
  · intro d hd
    obtain ⟨w, hw, hsw⟩ := pyStrip_append s
    rcases hps : pyStrip s with _ | ⟨x, xs⟩
    · rw [hps] at hd
      cases hd
    · rw [hps] at hd hsw
      injection hd with hd
      subst hd
      have hh : (s.dropWhile isPySpace).head? = some x := by
        rw [← hsw]
        rfl
      exact head?_dropWhile_false hh
  · intro d hd
    have hrev : (pyStrip s).reverse = (s.dropWhile isPySpace).reverse.dropWhile isPySpace := by
      unfold pyStrip
      rw [List.reverse_reverse]
    rw [hrev] at hd
    exact head?_dropWhile_false hd

/-! ### Character-class lemmas -/

theorem charToNat_ofNat {n : Nat} (h : n < 55296) : (Char.ofNat n).toNat = n := by
  unfold Char.ofNat
  rw [dif_pos (Or.inl h)]
  unfold Char.ofNatAux
  simp [Char.toNat, UInt32.toNat, BitVec.toNat_ofNatLt]

theorem isPySpace_ranges {c : Char} (h : isPySpace c = true) :
    c.toNat = 32 ∨ (9 ≤ c.toNat ∧ c.toNat ≤ 13) ∨ (28 ≤ c.toNat ∧ c.toNat ≤ 31) ∨
      c.toNat = 0x85 ∨ c.toNat = 0xA0 ∨ 0x1680 ≤ c.toNat := by
  simp only [isPySpace, Bool.or_eq_true, Bool.and_eq_true, decide_eq_true_eq] at h
  omega

theorem lowerCh_space {c : Char} (h : isPySpace c = true) : lowerCh c = c := by
  have hr := isPySpace_ranges h
  unfold lowerCh
  rw [if_neg (by simp only [Bool.and_eq_true, decide_eq_true_eq]; omega)]

theorem wrep_space {c : Char} (h : isPySpace c = true) : wrep c = ' ' := by
  have hr := isPySpace_ranges h
  unfold wrep
  rw [if_neg (by
    simp only [isWordChar, Bool.or_eq_true, Bool.and_eq_true, decide_eq_true_eq]
    omega)]

theorem pyG_space {c : Char} (h : isPySpace c = true) : pyG c = ' ' := by
  unfold pyG
  rw [lowerCh_space h, wrep_space h]
  decide

theorem isPySpace_pyG {c : Char} (h : isPySpace c = true) : isPySpace (pyG c) = true := by
  rw [pyG_space h]
  exact isPySpace_space

theorem pyG_space_char : pyG ' ' = ' ' := by decide

theorem lowerCh_ascii {c : Char} (h : c.toNat < 128) : (lowerCh c).toNat < 128 := by
  unfold lowerCh
  by_cases hc : (65 ≤ c.toNat && c.toNat ≤ 90) = true
  · rw [if_pos hc]
    simp only [Bool.and_eq_true, decide_eq_true_eq] at hc
    rw [charToNat_ofNat (by omega)]
    omega
  · rw [if_neg hc]
    exact h

theorem asciidammit_of_ascii {s : List Char} (h : ∀ c ∈ s, c.toNat < 128) :
    asciidammit s = s :=
  List.filter_eq_self.mpr (fun c hc => by
    simp only [Bool.or_eq_true, decide_eq_true_eq]
    exact Or.inl (h c hc))

theorem mem_joinSp {x : Char} (p : List (List Char)) (hx : x ∈ joinSp p) :
    (∃ t ∈ p, x ∈ t) ∨ x = ' ' := by
  induction p with
  | nil => cases hx
  | cons t ts ih =>
    cases ts with
    | nil => exact Or.inl ⟨t, List.mem_cons_self t [], hx⟩
    | cons t₂ ts₂ =>
      rw [joinSp_cons_ne t _ (by simp)] at hx
      rcases List.mem_append.mp hx with h | h
      · exact Or.inl ⟨t, List.mem_cons_self t _, h⟩
      · rcases List.mem_cons.mp h with hsp | h2
        · exact Or.inr hsp
        · rcases ih h2 with ⟨t', ht', hx'⟩ | hsp
          · exact Or.inl ⟨t', List.mem_cons_of_mem t ht', hx'⟩
          · exact Or.inr hsp

/-! ### Token multiset preservation under preprocessing -/

theorem tokens_full_process_ascii (s : List Char) (h : ∀ c ∈ s, c.toNat < 128) :
    pysplit (full_process (s.map lowerCh)) =
      ((pysplit s).map (fun t => pysplit (t.map pyG))).flatten := by
  unfold full_process
  rw [pysplit_pyStrip]
  have hascii : ∀ c ∈ s.map lowerCh, c.toNat < 128 := by
    intro c hc
    rcases List.mem_map.mp hc with ⟨x, hx, hxc⟩
    exact hxc ▸ lowerCh_ascii (h x hx)
  rw [asciidammit_of_ascii hascii, List.map_map, List.map_map]
  have hcomp : ((lowerCh ∘ wrep) ∘ lowerCh) = pyG := rfl
  rw [hcomp, pysplit_map pyG (fun c hc => isPySpace_pyG hc) s.length s (Nat.le_refl _)]

theorem tokens_full_process_join (p : List (List Char))
    (h : ∀ t ∈ p, ∀ c ∈ t, c.toNat < 128) :
    pysplit (full_process ((joinSp p).map lowerCh)) =
      (p.map (fun t => pysplit (t.map pyG))).flatten := by
  unfold full_process
  rw [pysplit_pyStrip]
  have hascii : ∀ c ∈ (joinSp p).map lowerCh, c.toNat < 128 := by
    intro c hc
    rcases List.mem_map.mp hc with ⟨x, hx, hxc⟩
    rcases mem_joinSp p hx with ⟨t, ht, hxt⟩ | hsp
    · exact hxc ▸ lowerCh_ascii (h t ht x hxt)
    · subst hsp
      subst hxc
      decide
  rw [asciidammit_of_ascii hascii, List.map_map, List.map_map]
  have hcomp : ((lowerCh ∘ wrep) ∘ lowerCh) = pyG := rfl
  rw [hcomp, map_joinSp pyG pyG_space_char p, pysplit_joinSp, List.map_map]
  rfl

theorem process_and_sort_perm_eq (Q : String) (p : List (List Char))
    (hQ : ∀ c ∈ Q.data, c.toNat < 128) (hperm : p.Perm (pysplit Q.data)) :
    process_and_sort (pyStrLower (String.mk (joinSp p))).data =
      process_and_sort (pyStrLower Q).data := by
  unfold process_and_sort
  have hptok : ∀ t ∈ p, ∀ c ∈ t, c.toNat < 128 := by
    intro t ht c hc
    have ht' : t ∈ pysplit Q.data := hperm.mem_iff.mp ht
    exact hQ c ((pysplit_tokens_spec Q.data t ht').2 c hc).2
  have hdata1 : (pyStrLower (String.mk (joinSp p))).data = (joinSp p).map lowerCh := rfl
  have hdata2 : (pyStrLower Q).data = Q.data.map lowerCh := rfl
  rw [hdata1, hdata2, tokens_full_process_join p hptok, tokens_full_process_ascii Q.data hQ]
  have hperm2 : ((p.map (fun t => pysplit (t.map pyG))).flatten).Perm
      (((pysplit Q.data).map (fun t => pysplit (t.map pyG))).flatten) :=
    (hperm.map _).flatten
  rw [pysort_eq_of_perm _ _ hperm2]

/-! ### Claim theorems: the match engine -/

/-- C5: for an empty knowledge base, `find_best_match` returns `(none, 0)`
for every input question and every threshold; the engine functions rather
than failing when the loader yields no entries (in `app.py`, `load_data`
returns the empty dict on failure). -/
theorem find_best_match_empty_kb (question : String) (threshold : Nat) :
    find_best_match question [] threshold = (none, 0) := rfl

/-- C1 counterexample: a knowledge base whose single (and hence
best-scoring) entry scores 79 against the query under threshold 80.  The
claim asserts the call returns `(none, 79)`; in fact `highest_score` is
only updated under `score >= threshold`, so the call returns `(none, 0)`,
and the entry's score really is 79. -/
theorem find_best_match_highest_score_counterexample :
    find_best_match "abcdefghijkxyz"
        [("Sheet1", [⟨some "abcdefghijkpqw", "Answer1"⟩])] 80 = (none, 0) ∧
      similarity "abcdefghijkxyz" "abcdefghijkpqw" = 79 := by
  constructor
  · decide
  · decide

/-- C1 (amended): `find_best_match` returns as `highestScore` the maximum
similarity score over the entries that reached the threshold — `0`, not the
overall maximum, when no entry did.  In particular, on a knowledge base
whose best entry scores 79 under threshold 80 it returns `(none, 0)`. -/
theorem find_best_match_highest_is_max_accepted :
    (∀ (question : String) (data : List (String × List QA)) (threshold : Nat),
        (find_best_match question data threshold).2 =
          maxTh threshold (scoredEntries question data)) ∧
      find_best_match "abcdefghijkxyz"
        [("Sheet1", [⟨some "abcdefghijkpqw", "Answer1"⟩])] 80 = (none, 0) := by
  constructor
  · intro question data threshold
    rw [find_best_match_spec]
    rfl
  · decide

/-- C9: for a positive threshold the result of `find_best_match` is either
`(none, 0)` or `(some match, s)` with `threshold ≤ s`: `best` is `none`
exactly when the returned score is `0`, and a returned score attached to a
match is never a nonzero value strictly below the threshold. -/
theorem find_best_match_threshold_invariant (question : String)
    (data : List (String × List QA)) (threshold : Nat) (hth : 0 < threshold) :
    ((find_best_match question data threshold).1 = none ↔
        (find_best_match question data threshold).2 = 0) ∧
      ∀ m s, find_best_match question data threshold = (some m, s) → threshold ≤ s := by
  have hspec := find_best_match_spec question data threshold
  constructor
  · rw [hspec, fbmSpec_snd, fbmSpec_fst_none_iff]
  · intro m s heq
    rw [hspec] at heq
    have h1 : (fbmSpec threshold (scoredEntries question data)).1 = some m := by rw [heq]
    have h2 : maxTh threshold (scoredEntries question data) = s := by
      rw [← fbmSpec_snd threshold (scoredEntries question data), heq]
    have hm : 0 < maxTh threshold (scoredEntries question data) := by
      by_contra h0
      have hz : maxTh threshold (scoredEntries question data) = 0 := by omega
      rw [(fbmSpec_fst_none_iff _ _).mpr hz] at h1
      cases h1
    obtain ⟨e, he, hsnd, hthm⟩ := maxTh_mem _ _ hm
    omega

/-- Witness for C9 at a concrete knowledge base and threshold 80. -/
theorem find_best_match_threshold_invariant_witness :
    0 < 80 ∧
      (((find_best_match "abcdx" [("Programs", [⟨some "abcde", "Ans80"⟩])] 80).1 = none ↔
          (find_best_match "abcdx" [("Programs", [⟨some "abcde", "Ans80"⟩])] 80).2 = 0) ∧
        ∀ m s, find_best_match "abcdx" [("Programs", [⟨some "abcde", "Ans80"⟩])] 80 =
          (some m, s) → 80 ≤ s) :=
  ⟨by decide,
   find_best_match_threshold_invariant "abcdx" [("Programs", [⟨some "abcde", "Ans80"⟩])]
     80 (by decide)⟩

/-- C3: the acceptance boundary is inclusive — with threshold 80, if some
entry scores exactly 80 and no entry scores higher, `find_best_match`
returns a match (`best ≠ none`) with highest score 80. -/
theorem find_best_match_boundary_inclusive (question : String)
    (data : List (String × List QA))
    (hex : ∃ e ∈ scoredEntries question data, e.2 = 80)
    (hub : ∀ e ∈ scoredEntries question data, e.2 ≤ 80) :
    (find_best_match question data 80).1 ≠ none ∧
      (find_best_match question data 80).2 = 80 := by
  obtain ⟨e, he, he80⟩ := hex
  have hle : maxTh 80 (scoredEntries question data) ≤ 80 := maxTh_le _ _ _ hub
  have hge : 80 ≤ maxTh 80 (scoredEntries question data) :=
    he80 ▸ maxTh_le_of_mem 80 _ e he (by omega)
  have hm : maxTh 80 (scoredEntries question data) = 80 :=
    Nat.le_antisymm hle hge
  have hspec := find_best_match_spec question data 80
  constructor
  · rw [hspec]
    intro hnone
    rw [fbmSpec_fst_none_iff] at hnone
    omega
  · rw [hspec, fbmSpec_snd, hm]

/-- Witness for C3: a single entry scoring exactly 80 is accepted. -/
theorem find_best_match_boundary_inclusive_witness :
    (∃ e ∈ scoredEntries "abcdx" [("Programs", [⟨some "abcde", "Ans80"⟩])], e.2 = 80) ∧
      (find_best_match "abcdx" [("Programs", [⟨some "abcde", "Ans80"⟩])] 80).1 ≠ none ∧
      (find_best_match "abcdx" [("Programs", [⟨some "abcde", "Ans80"⟩])] 80).2 = 80 :=
  ⟨by decide,
   find_best_match_boundary_inclusive "abcdx" [("Programs", [⟨some "abcde", "Ans80"⟩])]
     (by decide) (by decide)⟩

/-- C4: tie-break stability — when several entries achieve the same top
score at or above the threshold, `find_best_match` returns the answer and
source of the first such entry in traversal order; a later entry with an
equal score never overwrites it. -/
theorem find_best_match_tie_first_wins (question : String)
    (data : List (String × List QA)) (threshold : Nat)
    (l₁ l₂ : List ((String × String) × Nat)) (e₁ e₂ : (String × String) × Nat)
    (hsplit : scoredEntries question data = l₁ ++ e₁ :: l₂)
    (he₂ : e₂ ∈ l₂) (htie : e₂.2 = e₁.2)
    (hth : threshold ≤ e₁.2) (hpos : 0 < e₁.2)
    (htop : ∀ e ∈ scoredEntries question data, e.2 ≤ e₁.2)
    (hfirst : ∀ e ∈ l₁, e.2 ≠ e₁.2) :
    find_best_match question data threshold = (some e₁.1, e₁.2) := by
  have he₁ : e₁ ∈ scoredEntries question data := by
    rw [hsplit]
    exact List.mem_append_right l₁ (List.mem_cons_self e₁ l₂)
  have hge := maxTh_le_of_mem threshold _ e₁ he₁ hth
  have hle := maxTh_le threshold _ _ htop
  have hm : maxTh threshold (scoredEntries question data) = e₁.2 :=
    Nat.le_antisymm hle hge
  rw [find_best_match_spec]
  unfold fbmSpec
  rw [hm, if_pos hpos, hsplit, List.find?_append]
  have hnone : l₁.find? (fun x => decide (x.2 = e₁.2)) = none :=
    List.find?_eq_none.mpr (fun x hx => by simpa using hfirst x hx)
  have hfound : (e₁ :: l₂).find? (fun x => decide (x.2 = e₁.2)) = some e₁ :=
    List.find?_cons_of_pos _ (by simp)
  rw [hnone, hfound]
  rfl

/-- Witness for C4: two entries with the same stored question both score
100; the first one's answer is returned. -/
theorem find_best_match_tie_first_wins_witness :
    scoredEntries "dup" [("A", [⟨some "dup", "first"⟩, ⟨some "dup", "second"⟩])] =
        [] ++ (("first", "A"), 100) :: [(("second", "A"), 100)] ∧
      find_best_match "dup" [("A", [⟨some "dup", "first"⟩, ⟨some "dup", "second"⟩])] 80 =
        (some ("first", "A"), 100) :=
  ⟨by decide,
   find_best_match_tie_first_wins "dup"
     [("A", [⟨some "dup", "first"⟩, ⟨some "dup", "second"⟩])] 80
     [] [(("second", "A"), 100)] (("first", "A"), 100) (("second", "A"), 100)
     (by decide) (by decide) (by decide) (by decide) (by decide) (by decide)
     (by decide)⟩

/-! ### Claim theorems: fallback and input validation -/

/-- C6: `generate_gemini_response` is total — on a successful generation it
returns the generated text, and when the generation call raises an error it
catches it and returns the failure reason embedded in user-visible text
(`"Error generating response: ..."`); no exception escapes (the return type
is plain text, not an exceptional one). -/
theorem generate_gemini_response_total (model : String → Except String String)
    (question : String) :
    (∃ t, model (gemini_prompt question) = .ok t ∧
        generate_gemini_response model question = t) ∨
      ∃ e, model (gemini_prompt question) = .error e ∧
        generate_gemini_response model question = "Error generating response: " ++ e := by
  cases h : model (gemini_prompt question) with
  | ok t =>
    exact Or.inl ⟨t, rfl, by unfold generate_gemini_response; rw [h]⟩
  | error e =>
    exact Or.inr ⟨e, rfl, by unfold generate_gemini_response; rw [h]⟩

/-- C8: the normalizer never throws — for every input value that is not a
string, `clean_input` returns the empty string. -/
theorem clean_input_nonstring (v : PyVal) (h : ∀ s, v ≠ .str s) :
    clean_input v = "" := by
  cases v with
  | str s => exact absurd rfl (h s)
  | intV n => rfl
  | boolV b => rfl
  | noneV => rfl
  | listV l => rfl

/-- Witness for C8 at the non-string value `None`. -/
theorem clean_input_nonstring_witness :
    (∀ s, PyVal.noneV ≠ PyVal.str s) ∧ clean_input PyVal.noneV = "" :=
  ⟨fun s h => PyVal.noConfusion h,
   clean_input_nonstring PyVal.noneV (fun s h => PyVal.noConfusion h)⟩

/-! ### Claim theorems: similarity and the normalizer -/

/-- C2 counterexample: the similarity is *not* permutation-invariant for
every string.  For `Q = "a b"` (U+00A0 no-break space, which
`str.split()` treats as a token separator but `asciidammit` deletes), the
whitespace-delimited tokens are `["a", "b"]`, yet joining the reordering
`["b", "a"]` with a space scores 80 against `Q`, while
`similarity(Q, Q) = 100`. -/
theorem similarity_token_order_counterexample :
    pysplit (String.mk ['a', Char.ofNat 160, 'b']).data = [['a'], ['b']] ∧
      ([['b'], ['a']].Perm (pysplit (String.mk ['a', Char.ofNat 160, 'b']).data)) ∧
      similarity (String.mk ['a', Char.ofNat 160, 'b'])
        (String.mk ['a', Char.ofNat 160, 'b']) = 100 ∧
      similarity (String.mk ['a', Char.ofNat 160, 'b'])
        (String.mk (joinSp [['b'], ['a']])) = 80 := by
  refine ⟨by decide, by decide, by decide, by decide⟩

/-- C2 (amended): `similarity(Q, Q) = 100` for every string `Q`; and for
every `Q` consisting solely of ASCII characters (code points < 128),
joining any permutation of `Q`'s whitespace-delimited tokens with single
spaces yields similarity 100 with `Q`.  (For strings with non-ASCII
characters such as U+00A0 — a token separator that the scorer's ASCII
folding deletes — permutation invariance can fail.) -/
theorem similarity_token_order_insensitive :
    (∀ Q : String, similarity Q Q = 100) ∧
      ∀ (Q : String) (p : List (List Char)),
        (∀ c ∈ Q.data, c.toNat < 128) → p.Perm (pysplit Q.data) →
        similarity Q (String.mk (joinSp p)) = 100 := by
  constructor
  · intro Q
    unfold similarity token_sort_ratio fuzz_ratio
    rw [if_pos rfl]
  · intro Q p hQ hperm
    unfold similarity token_sort_ratio fuzz_ratio
    rw [process_and_sort_perm_eq Q p hQ hperm, if_pos rfl]

/-- Witness for C2 (amended) at a two-token ASCII string. -/
theorem similarity_token_order_insensitive_witness :
    (∀ c ∈ ("what programs" : String).data, c.toNat < 128) ∧
      (["programs".data, "what".data].Perm (pysplit ("what programs" : String).data)) ∧
      similarity "what programs" (String.mk (joinSp ["programs".data, "what".data])) = 100 :=
  ⟨by decide, by decide,
   similarity_token_order_insensitive.2 "what programs" ["programs".data, "what".data]
     (by decide) (by decide)⟩

/-- C7: the normalizer strips leading and trailing whitespace and collapses
every whitespace run to a single space — extensionally, `clean_input` on a
string returns exactly its whitespace-delimited tokens joined by single
spaces; in particular `clean_input("   What   programs?  \n")` returns
`"What programs?"`. -/
theorem clean_input_normalizes :
    (∀ s : String, clean_input (.str s) = String.mk (joinSp (pysplit s.data))) ∧
      clean_input (.str "   What   programs?  \n") = "What programs?" := by
  constructor
  · intro s
    show String.mk (collapseWs (pyStrip s.data)) = _
    rw [collapseWs_pyStrip]
  · decide

/-- C10: the normalizer is idempotent — applying `clean_input` to its own
(string) output returns the same string. -/
theorem clean_input_idempotent (s : String) :
    clean_input (.str (clean_input (.str s))) = clean_input (.str s) := by
  have h1 : clean_input (.str s) = String.mk (joinSp (pysplit s.data)) := by
    show String.mk (collapseWs (pyStrip s.data)) = _
    rw [collapseWs_pyStrip]
  rw [h1]
  show String.mk (collapseWs (pyStrip (joinSp (pysplit s.data)))) = _
  rw [collapseWs_pyStrip, pysplit_joinSp_pysplit]

end Kepler
